import Mathlib

/-!
Verification of the core path-discovery and flow-derivation engine of
`lightpath.py`: topology-link normalization (`get_topology_links`), the
switch-adjacency graph (`build_switch_graph`), breadth-first shortest path
(`shortest_switch_path`), per-hop port resolution
(`path_ports_for_switches`), host-attachment fallback (`heuristic`),
flow-rule construction (`push_flow`), and the abort-before-install staging
of `main` (modelled as the pure pipeline `mainModel`).

Conventions of the shallow embedding:
* Python strings are `String`, Python ints are `Int`, a value that may be
  `None` is an `Option`.
* JSON payloads from the controller are the inductive `Json`
  (floating-point JSON numbers are outside the model).
* Dictionaries keyed by switch id are total functions
  `Sw → Option _`; assignment is function update, `dict.get(k, d)` is
  `Option.getD`.
* The queue of the breadth-first search stores each partial path
  *reversed* (head of the list = `path[-1]` in the source, the node being
  expanded); the returned path is reversed back, so observable results
  match the source exactly.
* The source's BFS `while q:` loop terminates because each node is
  enqueued at most once; the embedding makes this explicit with a fuel
  parameter `bfsFuel` that exceeds the number of switches occurring in
  the link list, which is proved sufficient.
-/

namespace SDN

/-- Switch identifiers are opaque strings (Floodlight DPIDs); equality is
exact string match. -/
abbrev Sw := String

/-- One adjacency entry of `build_switch_graph`:
`(neighbor_dpid, src_port_on_this_switch, dst_port_on_neighbor)`.
Ports are optional (`None` marks an unknown port). -/
abbrev Adj := Sw × Option Int × Option Int

/-- A normalized topology link as produced by `get_topology_links`:
a dict with keys `src`, `src_port`, `dst`, `dst_port`. -/
structure Link where
  src : Sw
  src_port : Option Int
  dst : Sw
  dst_port : Option Int
deriving DecidableEq

/-- The guard `if not src or not dst: continue` in `build_switch_graph`:
a link is used only when both switch-id strings are truthy (non-empty). -/
def linkOk (l : Link) : Bool := l.src != "" && l.dst != ""

/-- The two adjacency entries one link contributes
(`graph[src].append((dst, src_port, dst_port))` and
`graph[dst].append((src, dst_port, src_port))`), restricted to the
adjacency list of a given switch `sw`. -/
def adjEntries (sw : Sw) (l : Link) : List Adj :=
  (if l.src = sw then [(l.dst, l.src_port, l.dst_port)] else []) ++
  (if l.dst = sw then [(l.src, l.dst_port, l.src_port)] else [])

/-- `build_switch_graph(links)`, viewed as the per-switch adjacency list:
for each switch the entries appended to `graph[sw]`, in link-iteration
order (the `defaultdict` yields `[]` for switches never touched, matching
`graph.get(node, [])`). -/
def build_switch_graph (links : List Link) : Sw → List Adj :=
  fun sw => (links.filter linkOk).flatMap (adjEntries sw)

/-- All switch ids occurring in (well-formed) links; every node the BFS can
ever enqueue lies in this list.  Used only to size the fuel of the
embedded BFS loop. -/
def switchUniverse (links : List Link) : List Sw :=
  (links.filter linkOk).flatMap (fun l => [l.src, l.dst])

/-- `b` appears as a neighbor in the adjacency list of `a`. -/
def isNbr (g : Sw → List Adj) (a b : Sw) : Prop := ∃ e ∈ g a, e.1 = b

/-- Neighborhood is decidable (the adjacency list is scanned). -/
instance (g : Sw → List Adj) (a b : Sw) : Decidable (isNbr g a b) := by
  unfold isNbr; infer_instance

/-- `p` is a path in the graph from `src` to `dst`: nonempty, starts at
`src`, ends at `dst`, and every consecutive pair is an adjacency. -/
def IsSwPath (g : Sw → List Adj) (src dst : Sw) (p : List Sw) : Prop :=
  p.head? = some src ∧ p.getLast? = some dst ∧ List.Chain' (isNbr g) p

/-- Path-hood of a concrete list is decidable. -/
instance (g : Sw → List Adj) (src dst : Sw) (p : List Sw) : Decidable (IsSwPath g src dst p) := by
  unfold IsSwPath; infer_instance

/-- Result of expanding the neighbor list of one dequeued path: either the
destination was discovered (the loop `return newpath`) or the scan
finished with new queue entries and an enlarged visited set. -/
inductive ExpandRes where
  | found (p : List Sw)
  | cont (newPaths : List (List Sw)) (visited : List Sw)

/-- The inner `for (nbr, _, _) in graph.get(node, [])` loop of
`shortest_switch_path`: skip visited neighbors, return the extended path
as soon as the destination appears, otherwise mark the neighbor visited
and append the extended path to the queue.  `path` is stored reversed
(head = current node). -/
def expand (dst : Sw) (path : List Sw) : List Adj → List Sw → List (List Sw) → ExpandRes
  | [], visited, acc => .cont acc visited
  | e :: rest, visited, acc =>
    if e.1 ∈ visited then expand dst path rest visited acc
    else if e.1 = dst then .found (e.1 :: path)
    else expand dst path rest (e.1 :: visited) (acc ++ [e.1 :: path])

/-- The `while q:` loop of `shortest_switch_path`, with explicit fuel.
Queue entries are reversed paths; `path[-1]` is the head.  The
`[] :: _` queue case is unreachable (queue entries are nonempty) and
returns the not-found value. -/
def bfsAux (g : Sw → List Adj) (dst : Sw) : Nat → List (List Sw) → List Sw → Option (List Sw)
  | 0, _, _ => none
  | _ + 1, [], _ => none
  | _ + 1, [] :: _, _ => none
  | fuel + 1, (node :: tl) :: qrest, visited =>
    match expand dst (node :: tl) (g node) visited [] with
    | .found p => some p.reverse
    | .cont newPaths visited2 => bfsAux g dst fuel (qrest ++ newPaths) visited2

/-- Fuel that provably suffices for the BFS loop: one more than the number
of switch occurrences in the link list. -/
def bfsFuel (links : List Link) : Nat := (switchUniverse links).length + 1

/-- `shortest_switch_path(graph, src_sw, dst_sw)` where
`graph = build_switch_graph(links)`: BFS shortest path returning the list
of switches, `none` when no path exists.  The equal-endpoints shortcut
`if src_sw == dst_sw: return [src_sw]` comes first, exactly as in the
source. -/
def shortest_switch_path (links : List Link) (src_sw dst_sw : Sw) : Option (List Sw) :=
  if src_sw = dst_sw then some [src_sw]
  else bfsAux (build_switch_graph links) dst_sw (bfsFuel links) [[src_sw]] [src_sw]

/-- The port-lookup loop of `path_ports_for_switches`: scan the adjacency
list of `sw` for the first entry whose neighbor is `target`, returning its
local port (`src_p`); `none` when no entry matches (the port variable
keeps its `None` initial value). -/
def portToward (g : Sw → List Adj) (sw target : Sw) : Option Int :=
  match (g sw).find? (fun e => e.1 == target) with
  | some e => e.2.1
  | none => none

/-- The far-end port recorded in `sw`'s first adjacency entry toward
`target` (the `dst_p` field of the entry `portToward` resolves).
Not a function of the source; used to state the link-consistency of port
resolution (amended C4). -/
def portFrom (g : Sw → List Adj) (sw target : Sw) : Option Int :=
  match (g sw).find? (fun e => e.1 == target) with
  | some e => e.2.2
  | none => none

/-- The `(in_port, out_port)` pair computed for position `i` of the switch
path: `in_port` is the port toward the previous hop (when `i > 0`),
`out_port` the port toward the next hop (when `i < len(switch_path) - 1`),
each `none` otherwise. -/
def hopAt (g : Sw → List Adj) (sp : List Sw) (i : Nat) : Option Int × Option Int :=
  match sp[i]? with
  | some sw =>
    ((if 0 < i then
        match sp[i-1]? with
        | some prev => portToward g sw prev
        | none => none
      else none),
     (if i < sp.length - 1 then
        match sp[i+1]? with
        | some nxt => portToward g sw nxt
        | none => none
      else none))
  | none => (none, none)

/-- `path_ports_for_switches(graph, switch_path)`: the dict
`hop_ports[sw] = (in_port, out_port)` built by iterating
`for i, sw in enumerate(switch_path)`; dict assignment is modelled as
function update, so a repeated switch keeps the last assignment, exactly
like the Python dict. -/
def path_ports_for_switches (g : Sw → List Adj) (sp : List Sw) :
    Sw → Option (Option Int × Option Int) :=
  sp.enum.foldl
    (fun hp p => fun x => if x = p.2 then some (hopAt g sp p.1) else hp x)
    (fun _ => none)

/-- The literal reading of the spec's self-consistency sentence, over the
`(in, out)` pairs of `path_ports_for_switches`: at every interior position
the hop's ingress equals its predecessor's egress and its egress equals
its successor's ingress.  (Stated to be decidable so a concrete
counterexample can be checked.) -/
def SelfConsistentLit (g : Sw → List Adj) (sp : List Sw) : Prop :=
  ∀ i, i < sp.length → 0 < i → i + 1 < sp.length →
    (hopAt g sp i).1 = (hopAt g sp (i-1)).2 ∧
    (hopAt g sp i).2 = (hopAt g sp (i+1)).1

/-- The literal self-consistency reading is decidable on concrete data. -/
instance (g : Sw → List Adj) (sp : List Sw) : Decidable (SelfConsistentLit g sp) := by
  unfold SelfConsistentLit; infer_instance

/-- Reading `hop_ports[sw]` (the key is always present when `sw` is on the
path, which is proved; `(none, none)` is a junk default). -/
def hpGet (hp : Sw → Option (Option Int × Option Int)) (x : Sw) :
    Option Int × Option Int :=
  (hp x).getD (none, none)

/-- The endpoint overrides of `main`:
`hop_ports[sw_path[0]] = (src_port, hop_ports[sw_path[0]][1])` followed by
`hop_ports[sw_path[-1]] = (hop_ports[sw_path[-1]][0], dst_port)` — note
the second read sees the first write (relevant when the path is a single
switch). -/
def overrideEndpoints (hp : Sw → Option (Option Int × Option Int))
    (sp : List Sw) (srcP dstP : Int) : Sw → Option (Option Int × Option Int) :=
  match sp.head?, sp.getLast? with
  | some first0, some last0 =>
    let hp1 := fun x => if x = first0 then some (some srcP, (hpGet hp first0).2) else hp x
    fun x => if x = last0 then some ((hpGet hp1 last0).1, some dstP) else hp1 x
  | _, _ => hp

/-- The JSON body `push_flow` posts to the static-flow-pusher, as an
ordered key/value list (Python dicts preserve insertion order).  The
`in_port` match field is present exactly when `in_port is not None`. -/
abbrev FlowJson := List (String × String)

/-- `push_flow(floodlight_url, switch_dpid, flow_name, in_port, out_port,
priority)`: the flow dict it constructs and posts (the HTTP side effect
itself is outside the model; one list element below = one installed
field). -/
def push_flow (switch_dpid flow_name : String) (in_port : Option Int)
    (out_port : Int) (priority : Nat) : FlowJson :=
  [("switch", switch_dpid), ("name", flow_name), ("cookie", "0"),
   ("priority", toString priority), ("active", "true")] ++
  (match in_port with
   | some p => [("in_port", toString p)]
   | none => []) ++
  [("actions", "output=" ++ toString out_port)]

/-- One direction's installation loop in `main`: for each
`(i, sw) in enumerate(path)` take `(in_p, out_p) = hop_ports[sw]`,
substitute the host port when `out_p is None`, and push a flow named
`f"{pfx}_{a}_to_{b}_{i+1}"` with default priority 32768. -/
def pushLoop (sp : List Sw) (hp : Sw → Option (Option Int × Option Int))
    (defaultOut : Int) (pfx aName bName : String) : List FlowJson :=
  sp.enum.map (fun p =>
    let ports := hpGet hp p.2
    let outP := match ports.2 with
      | some o => o
      | none => defaultOut
    push_flow p.2 (pfx ++ "_" ++ aName ++ "_to_" ++ bName ++ "_" ++ toString (p.1 + 1))
      ports.1 outP 32768)

/-- Digit-string value (`int` of a string of decimal digits). -/
def digitsToNat (ds : List Char) : Nat :=
  ds.foldl (fun a c => a * 10 + (c.toNat - '0'.toNat)) 0

/-- Python `int(s)` on a string: strip surrounding spaces, allow one
leading sign, then decimal digits; anything else raises, modelled as
`none`.  (CPython additionally accepts other whitespace, underscore
digit-group separators and non-ASCII digits; no claim depends on those.) -/
def pyIntParse (cs : List Char) : Option Int :=
  let t := ((cs.dropWhile (· = ' ')).reverse.dropWhile (· = ' ')).reverse
  match t with
  | [] => none
  | c :: rest =>
    if c = '-' then
      if rest ≠ [] ∧ rest.all (·.isDigit) then some (-(digitsToNat rest : Int)) else none
    else if c = '+' then
      if rest ≠ [] ∧ rest.all (·.isDigit) then some ((digitsToNat rest : Int)) else none
    else
      if (c :: rest).all (·.isDigit) then some ((digitsToNat (c :: rest) : Int)) else none

/-- Python `"{:02d}".format(n)`: decimal rendering left-padded with `0` to
width 2 (the sign counts toward the width, as in Python). -/
def pyFormat02d (n : Int) : String :=
  let s := toString n
  if s.length < 2 then "0" ++ s else s

/-- The fallback `heuristic(hostname)` of `main`: strip every leading
`'h'` (`str.lstrip`), parse the remainder as an int (`None` on failure,
via the `except`), and map ordinal `n` to the DPID
`"00:00:00:00:00:00:00:{:02d}".format(n)` with port 1. -/
def heuristic (hostname : String) : Option (Sw × Int) :=
  match pyIntParse (hostname.data.dropWhile (· = 'h')) with
  | some n => some ("00:00:00:00:00:00:00:" ++ pyFormat02d n, 1)
  | none => none

/-- JSON values as decoded by `r.json()` (floating-point numbers are
outside the model; no claim involves them). -/
inductive Json where
  | null
  | bool (b : Bool)
  | int (n : Int)
  | str (s : String)
  | arr (xs : List Json)
  | obj (kvs : List (String × Json))

/-- Python `str`/`repr` of a decoded JSON value; the flag selects `repr`
(strings quoted), used inside containers.  `repr` of a string is modelled
as plain single-quoting (CPython's escape handling and quote choice for
strings containing quotes are not modelled; no claim evaluates these on
container or quote-bearing values). -/
def pyStrQ : Bool → Json → String
  | q, .str s => if q then "\x27" ++ s ++ "\x27" else s
  | _, .int n => toString n
  | _, .bool b => if b then "True" else "False"
  | _, .null => "None"
  | _, .arr xs =>
    "[" ++ String.intercalate ", " (xs.attach.map (fun x => pyStrQ true x.1)) ++ "]"
  | _, .obj kvs =>
    "\x7b" ++ String.intercalate ", "
      (kvs.attach.map (fun kv => "\x27" ++ kv.1.1 ++ "\x27: " ++ pyStrQ true kv.1.2)) ++ "\x7d"
termination_by _ j => sizeOf j
decreasing_by
  · simp_wf
    have h := List.sizeOf_lt_of_mem x.2
    omega
  · simp_wf
    have h := List.sizeOf_lt_of_mem kv.2
    obtain ⟨⟨a, b⟩, hm⟩ := kv
    simp at h ⊢
    omega

/-- Python `str(v)` of a decoded JSON value. -/
def pyStr (v : Json) : String := pyStrQ false v

/-- Python truthiness of a decoded JSON value. -/
def jsonTruthy : Json → Bool
  | .null => false
  | .bool b => b
  | .int n => n != 0
  | .str s => s != ""
  | .arr xs => !xs.isEmpty
  | .obj kvs => !kvs.isEmpty

/-- `entry.get(k)`: `none` when the key is absent (a stored JSON `null`
also reads back as Python `None`, which `Json.null` models on the value
side). -/
def pyGet (kvs : List (String × Json)) (k : String) : Option Json :=
  (kvs.find? (fun kv => kv.1 == k)).map (fun kv => kv.2)

/-- The alias chain `entry.get(k1) or entry.get(k2) or ...`: the first
truthy value, else `none`.  (Python's `or` returns the last operand when
all are falsy; a falsy result is treated identically to `None` by every
consumer — the `isinstance(..., dict)` probe of a falsy value is the empty
dict, which resolves to nothing, and `if not src` skips falsy values — so
first-truthy-else-none is observationally equivalent.) -/
def resolveAlias (kvs : List (String × Json)) : List String → Option Json
  | [] => none
  | k :: rest =>
    match pyGet kvs k with
    | some v => if jsonTruthy v then some v else resolveAlias kvs rest
    | none => resolveAlias kvs rest

/-- The nested-switch recovery: `if isinstance(src, dict): src =
src.get('switchDPID') or src.get('dpid') or src.get('id')`. -/
def nestedFix : Option Json → Option Json
  | some (.obj kvs) => resolveAlias kvs ["switchDPID", "dpid", "id"]
  | x => x

/-- `int(v)` with the `int(str(v))` fallback of `get_port`: ints pass
through, bools are 0/1, strings are parsed, everything else fails both
conversions (`int` of a list/dict/None raises, and `int(str(·))` of their
rendered forms never parses). -/
def pyJsonToInt : Json → Option Int
  | .int n => some n
  | .bool b => some (if b then 1 else 0)
  | .str s => pyIntParse s.data
  | _ => none

/-- The inner helper `get_port(e, *keys)` of `get_topology_links`: first
key whose present value converts to an int; keys that are absent, `None`,
or unconvertible are skipped; `None` when the chain is exhausted. -/
def get_port (kvs : List (String × Json)) : List String → Option Int
  | [] => none
  | k :: rest =>
    match pyGet kvs k with
    | some v =>
      match pyJsonToInt v with
      | some n => some n
      | none => get_port kvs rest
    | none => get_port kvs rest

/-- Source-switch field aliases probed by `get_topology_links`. -/
def srcSwitchKeys : List String :=
  ["src", "src-switch", "srcSwitch", "source", "src_switch", "src_switch_dpid"]

/-- Destination-switch field aliases probed by `get_topology_links`. -/
def dstSwitchKeys : List String :=
  ["dst", "dst-switch", "dstSwitch", "destination", "dst_switch", "dst_switch_dpid"]

/-- Source-port field aliases probed by `get_topology_links`. -/
def srcPortKeys : List String :=
  ["src-port", "src_port", "srcPort", "port1", "srcPortNumber"]

/-- Destination-port field aliases probed by `get_topology_links`. -/
def dstPortKeys : List String :=
  ["dst-port", "dst_port", "dstPort", "port2", "dstPortNumber"]

/-- The per-entry body of `get_topology_links`' normalization loop:
non-dict entries are skipped; switch ids are resolved through the alias
chains (with the nested-dict recovery), ports through `get_port`; entries
whose source or destination stays unresolved (falsy) are skipped; the
normalized link stringifies the resolved ids with `str`. -/
def normalizeEntry : Json → Option Link
  | .obj e =>
    let src0 := resolveAlias e srcSwitchKeys
    let dst0 := resolveAlias e dstSwitchKeys
    let srcPort := get_port e srcPortKeys
    let dstPort := get_port e dstPortKeys
    match nestedFix src0, nestedFix dst0 with
    | some sv, some dv =>
      if jsonTruthy sv && jsonTruthy dv then
        some { src := pyStr sv, src_port := srcPort, dst := pyStr dv, dst_port := dstPort }
      else none
    | _, _ => none
  | _ => none

/-- `get_topology_links`, from the decoded payload on: unwrap a dict with
a `links` key, return `[]` for any non-list shape (with a diagnostic in
the source), normalize each entry, dropping malformed ones. -/
def get_topology_links (raw : Json) : List Link :=
  let rawLinks := match raw with
    | .obj kvs =>
      match pyGet kvs "links" with
      | some v => v
      | none => raw
    | _ => raw
  match rawLinks with
  | .arr entries => entries.filterMap normalizeEntry
  | _ => []

/-- The three fatal `SystemExit` conditions of `main` (each terminates the
process with nonzero status before any flow is pushed). -/
inductive RunExit where
  | attachmentUnresolved
  | emptyTopology
  | noPath
deriving DecidableEq

/-- Attachment after the fallback block: `if src_ap is None: src_ap =
heuristic(args.src)`. -/
def resolvedAp (ap0 : Option (Sw × Int)) (hostname : String) : Option (Sw × Int) :=
  match ap0 with
  | some a => some a
  | none => heuristic hostname

/-- The pipeline of `main` from attachment-point selection onward, as a
pure function.  `srcAp0`/`dstAp0` are the results of
`pick_attachment(find_device_by_name(devices, h), h)` (device-directory
state is an HTTP input), `rawTopo` the decoded topology payload.  The
result is either the fatal exit taken, or the ordered list of flow bodies
POSTed (forward, then reverse when bidirectional): flows are pushed only
on the `.ok` branch, after every check has passed, exactly as in the
source. -/
def mainModel (srcName dstName : String) (srcAp0 dstAp0 : Option (Sw × Int))
    (rawTopo : Json) (bidirectional : Bool) : Except RunExit (List FlowJson) :=
  let aps :=
    if srcAp0 = none ∨ dstAp0 = none then
      (resolvedAp srcAp0 srcName, resolvedAp dstAp0 dstName)
    else (srcAp0, dstAp0)
  match aps with
  | (some (srcSwitch, srcPort), some (dstSwitch, dstPort)) =>
    let links := get_topology_links rawTopo
    if links.length = 0 then .error .emptyTopology
    else
      let graph := build_switch_graph links
      let sp0 := shortest_switch_path links srcSwitch dstSwitch
      match (match sp0 with
             | some p => some p
             | none => if srcSwitch = dstSwitch then some [srcSwitch] else none) with
      | none => .error .noPath
      | some swPath =>
        let hp := overrideEndpoints (path_ports_for_switches graph swPath) swPath srcPort dstPort
        let fwd := pushLoop swPath hp dstPort "fwd" srcName dstName
        if bidirectional then
          let revPath := swPath.reverse
          let rhp := overrideEndpoints (path_ports_for_switches graph revPath) revPath dstPort srcPort
          let rev := pushLoop revPath rhp srcPort "rev" dstName srcName
          .ok (fwd ++ rev)
        else .ok fwd
  | _ => .error .attachmentUnresolved

/-- The flow bodies a run POSTs: none on a fatal exit. -/
def installsOf : Except RunExit (List FlowJson) → List FlowJson
  | .ok l => l
  | .error _ => []

/-- Well-formedness of one BFS queue entry (a reversed partial path):
nonempty, rooted at `src`, edge-connected, duplicate-free, and fully
visited. -/
structure QEntry (g : Sw → List Adj) (src : Sw) (V : List Sw) (r : List Sw) : Prop where
  ne : r ≠ []
  last_src : r.getLast? = some src
  chain : List.Chain' (fun a b => isNbr g b a) r
  nodup : r.Nodup
  subV : ∀ x ∈ r, x ∈ V

/-- The loop invariant of the BFS in `shortest_switch_path`. -/
structure BfsInv (g : Sw → List Adj) (src dst : Sw) (Q : List (List Sw)) (V : List Sw) : Prop where
  src_mem : src ∈ V
  dst_not : dst ∉ V
  entries : ∀ r ∈ Q, QEntry g src V r
  sorted : List.Pairwise (· ≤ ·) (Q.map List.length)
  bound : ∀ r0, Q.head? = some r0 → ∀ s ∈ Q, s.length ≤ r0.length + 1
  q_min : ∀ r ∈ Q, ∀ u, r.head? = some u → ∀ z, IsSwPath g src u z → r.length ≤ z.length
  far : ∀ w, w ∉ V → ∀ z, IsSwPath g src w z →
    ∃ r0 Qr, Q = r0 :: Qr ∧ r0.length + 1 ≤ z.length
  closed : ∀ u ∈ V, (∃ r ∈ Q, r.head? = some u) ∨ (∀ b, isNbr g u b → b ∈ V)

theorem mem_adjEntries {sw : Sw} {l : Link} {e : Adj} :
    e ∈ adjEntries sw l ↔
      (l.src = sw ∧ e = (l.dst, l.src_port, l.dst_port)) ∨
      (l.dst = sw ∧ e = (l.src, l.dst_port, l.src_port)) := by
  unfold adjEntries
  by_cases h1 : l.src = sw <;> by_cases h2 : l.dst = sw <;> simp [h1, h2]

theorem mem_build_switch_graph {links : List Link} {sw : Sw} {e : Adj} :
    e ∈ build_switch_graph links sw ↔
      ∃ l ∈ links, linkOk l = true ∧ e ∈ adjEntries sw l := by
  unfold build_switch_graph
  simp [List.mem_flatMap, List.mem_filter, and_assoc]

/-- **C2.** For every list of normalized links the built graph is
symmetric: the adjacency list of switch `A` contains `(B, p, q)` exactly
when the adjacency list of switch `B` contains `(A, q, p)`. -/
theorem build_switch_graph_symmetric (links : List Link) (A B : Sw) (p q : Option Int) :
    (B, p, q) ∈ build_switch_graph links A ↔ (A, q, p) ∈ build_switch_graph links B := by
  simp only [mem_build_switch_graph, mem_adjEntries, Prod.mk.injEq]
  constructor
  · rintro ⟨l, hl, hok, (⟨h1, h2, h3, h4⟩ | ⟨h1, h2, h3, h4⟩)⟩
    · exact ⟨l, hl, hok, Or.inr ⟨h2.symm, h1.symm, h4, h3⟩⟩
    · exact ⟨l, hl, hok, Or.inl ⟨h2.symm, h1.symm, h4, h3⟩⟩
  · rintro ⟨l, hl, hok, (⟨h1, h2, h3, h4⟩ | ⟨h1, h2, h3, h4⟩)⟩
    · exact ⟨l, hl, hok, Or.inr ⟨h2.symm, h1.symm, h4, h3⟩⟩
    · exact ⟨l, hl, hok, Or.inl ⟨h2.symm, h1.symm, h4, h3⟩⟩

theorem find?_eq_head?_filter {α : Type} (p : α → Bool) (l : List α) :
    l.find? p = (l.filter p).head? := by
  induction l with
  | nil => rfl
  | cons a l ih =>
    by_cases h : p a
    · rw [List.find?_cons_of_pos _ h, List.filter_cons, if_pos h, List.head?_cons]
    · rw [List.find?_cons_of_neg _ h, List.filter_cons, if_neg h, ih]

theorem filter_build_mirror (links : List Link) (a b : Sw) (hab : a ≠ b) :
    (build_switch_graph links b).filter (fun e => e.1 == a) =
      ((build_switch_graph links a).filter (fun e => e.1 == b)).map
        (fun e => (a, e.2.2, e.2.1)) := by
  unfold build_switch_graph
  rw [List.filter_flatMap, List.filter_flatMap, List.map_flatMap]
  congr 1
  funext l
  unfold adjEntries
  by_cases h1 : l.src = a <;> by_cases h2 : l.dst = a <;>
    by_cases h3 : l.src = b <;> by_cases h4 : l.dst = b <;>
    simp_all [List.filter_cons]

theorem portToward_eq_portFrom (links : List Link) (a b : Sw) (hab : a ≠ b) :
    portToward (build_switch_graph links) b a = portFrom (build_switch_graph links) a b := by
  unfold portToward portFrom
  rw [find?_eq_head?_filter, find?_eq_head?_filter, filter_build_mirror links a b hab,
    List.head?_map]
  cases ((build_switch_graph links a).filter (fun e => e.1 == b)).head? <;> rfl

theorem foldl_update_lookup {β : Type} (f : Nat → β) (l : List (Nat × Sw))
    (init : Sw → Option β) (x : Sw) :
    (l.foldl (fun hp p => fun y => if y = p.2 then some (f p.1) else hp y) init) x =
      (match l.reverse.find? (fun p => x == p.2) with
       | some p => some (f p.1)
       | none => init x) := by
  induction l generalizing init with
  | nil => rfl
  | cons a l ih =>
    rw [List.foldl_cons, ih, List.reverse_cons, List.find?_append]
    cases h : l.reverse.find? (fun p => x == p.2) with
    | some p => simp [Option.or]
    | none =>
      by_cases hx : x = a.2 <;> simp [Option.or, List.find?_cons, hx]

theorem path_ports_lookup (g : Sw → List Adj) (sp : List Sw) (hnd : sp.Nodup)
    (i : Nat) (sw : Sw) (hi : sp[i]? = some sw) :
    path_ports_for_switches g sp sw = some (hopAt g sp i) := by
  unfold path_ports_for_switches
  rw [foldl_update_lookup (fun j => hopAt g sp j) sp.enum (fun _ => none) sw]
  have hmem : (i, sw) ∈ sp.enum.reverse := by
    rw [List.mem_reverse, List.mk_mem_enum_iff_getElem?]
    exact hi
  cases h : sp.enum.reverse.find? (fun p => sw == p.2) with
  | none =>
    exfalso
    have hsome : (sp.enum.reverse.find? (fun p => sw == p.2)).isSome := by
      rw [List.find?_isSome]
      exact ⟨(i, sw), hmem, by simp⟩
    rw [h] at hsome
    simp at hsome
  | some p =>
    rcases p with ⟨j, y⟩
    have hpy := List.find?_some h
    have hyv : y = sw := (beq_iff_eq.1 hpy).symm
    have hmem2 : (j, y) ∈ sp.enum := List.mem_reverse.1 (List.mem_of_find?_eq_some h)
    have hj : sp[j]? = some y := List.mk_mem_enum_iff_getElem?.1 hmem2
    have hij : i = j := by
      refine List.getElem?_inj (List.getElem?_eq_some.1 hi).1 hnd ?_
      rw [hi, hj, hyv]
    rw [hij]

/-- **C4 (counterexample).** On the two-link line a—b—c (ports 1/2 and
3/4), the path computed by the engine is `[a, b, c]`, but the hop pairs
are not literally self-consistent: the ingress of `b` (port 2, local to
`b`) differs from the egress recorded by its predecessor `a` (port 1,
local to `a`). -/
theorem c4_counterexample :
    shortest_switch_path
        ([⟨"a", some 1, "b", some 2⟩, ⟨"b", some 3, "c", some 4⟩] : List Link) "a" "c"
      = some ["a", "b", "c"] ∧
    ¬ SelfConsistentLit
        (build_switch_graph ([⟨"a", some 1, "b", some 2⟩, ⟨"b", some 3, "c", some 4⟩] : List Link))
        ["a", "b", "c"] := by
  constructor
  · rfl
  · decide

/-- **C4 (amended).** For every graph built from normalized links and
every duplicate-free switch path over it, the port assignment of
`path_ports_for_switches` is link-consistent at every interior hop: the
hop's ingress port is exactly the far-end (neighbor) port recorded in its
predecessor's first adjacency entry toward it, and its egress port is the
far-end port recorded in its successor's adjacency entry toward it — both
ends resolve the same link, with the two roles attached to opposite
switches rather than being numerically equal. -/
theorem c4_port_resolution_link_consistent (links : List Link) (sp : List Sw)
    (hnd : sp.Nodup) (i : Nat) (sw prev nxt : Sw) (h0 : 0 < i)
    (hsw : sp[i]? = some sw) (hprev : sp[i-1]? = some prev) (hnxt : sp[i+1]? = some nxt) :
    path_ports_for_switches (build_switch_graph links) sp sw
        = some (hopAt (build_switch_graph links) sp i) ∧
    (hopAt (build_switch_graph links) sp i).1 = portFrom (build_switch_graph links) prev sw ∧
    (hopAt (build_switch_graph links) sp i).2 = portFrom (build_switch_graph links) nxt sw := by
  have hlt : i + 1 < sp.length := (List.getElem?_eq_some.1 hnxt).1
  have hilt : i < sp.length := (List.getElem?_eq_some.1 hsw).1
  have hprevne : prev ≠ sw := by
    intro he
    have : i - 1 = i := by
      refine List.getElem?_inj (by omega) hnd ?_
      rw [hprev, hsw, he]
    omega
  have hnxtne : nxt ≠ sw := by
    intro he
    have : i + 1 = i := by
      refine List.getElem?_inj (by omega) hnd ?_
      rw [hnxt, hsw, he]
    omega
  have hgl : i < sp.length - 1 := by omega
  refine ⟨path_ports_lookup _ sp hnd i sw hsw, ?_, ?_⟩
  · simp only [hopAt, hsw, hprev, if_pos h0]
    exact portToward_eq_portFrom links prev sw hprevne
  · simp only [hopAt, hsw, hnxt, if_pos hgl]
    exact portToward_eq_portFrom links nxt sw hnxtne

/-- Witness for the amended C4 at the concrete line a—b—c. -/
theorem c4_witness :
    (["a", "b", "c"] : List Sw).Nodup ∧ 0 < 1 ∧
    (["a", "b", "c"] : List Sw)[1]? = some "b" ∧
    (["a", "b", "c"] : List Sw)[0]? = some "a" ∧
    (["a", "b", "c"] : List Sw)[2]? = some "c" ∧
    (path_ports_for_switches
        (build_switch_graph ([⟨"a", some 1, "b", some 2⟩, ⟨"b", some 3, "c", some 4⟩] : List Link))
        ["a", "b", "c"] "b"
      = some (hopAt (build_switch_graph ([⟨"a", some 1, "b", some 2⟩, ⟨"b", some 3, "c", some 4⟩] : List Link)) ["a", "b", "c"] 1) ∧
    (hopAt (build_switch_graph ([⟨"a", some 1, "b", some 2⟩, ⟨"b", some 3, "c", some 4⟩] : List Link)) ["a", "b", "c"] 1).1
      = portFrom (build_switch_graph ([⟨"a", some 1, "b", some 2⟩, ⟨"b", some 3, "c", some 4⟩] : List Link)) "a" "b" ∧
    (hopAt (build_switch_graph ([⟨"a", some 1, "b", some 2⟩, ⟨"b", some 3, "c", some 4⟩] : List Link)) ["a", "b", "c"] 1).2
      = portFrom (build_switch_graph ([⟨"a", some 1, "b", some 2⟩, ⟨"b", some 3, "c", some 4⟩] : List Link)) "c" "b") :=
  ⟨by decide, by decide, by decide, by decide, by decide,
   c4_port_resolution_link_consistent _ _ (by decide) 1 "b" "a" "c" (by decide)
     (by decide) (by decide) (by decide)⟩

/-- **C5.** For every graph and every duplicate-free switch path of
length at least 3, running port resolution on the reversed switch
sequence yields at every interior hop the forward ingress/egress pair
with the two roles swapped: reverse ingress = forward egress and reverse
egress = forward ingress at that hop. -/
theorem c5_reverse_port_resolution (g : Sw → List Adj) (sp : List Sw)
    (hnd : sp.Nodup) (hlen : 3 ≤ sp.length) (i : Nat) (sw : Sw)
    (h0 : 0 < i) (hi1 : i + 1 < sp.length) (hsw : sp[i]? = some sw) :
    path_ports_for_switches g sp.reverse sw
      = some ((hopAt g sp i).2, (hopAt g sp i).1) := by
  have hrev : sp.reverse[sp.length - 1 - i]? = some sw := by
    rw [List.getElem?_reverse (by omega)]
    have : sp.length - 1 - (sp.length - 1 - i) = i := by omega
    rw [this, hsw]
  have hlook := path_ports_lookup g sp.reverse (List.nodup_reverse.2 hnd)
    (sp.length - 1 - i) sw hrev
  rw [hlook]
  have e1 : sp.reverse[sp.length - 1 - i - 1]? = sp[i+1]? := by
    rw [List.getElem?_reverse (by omega)]
    congr 1
    omega
  have e2 : sp.reverse[sp.length - 1 - i + 1]? = sp[i-1]? := by
    rw [List.getElem?_reverse (by omega)]
    congr 1
    omega
  have hg1 : 0 < sp.length - 1 - i := by omega
  have hg2 : sp.length - 1 - i < sp.reverse.length - 1 := by
    rw [List.length_reverse]
    omega
  have hg3 : i < sp.length - 1 := by omega
  simp only [hopAt, hrev, hsw, e1, e2, if_pos hg1, if_pos hg2, if_pos hg3, if_pos h0]

/-- Witness for C5 at the concrete line a—b—c, interior hop `b`. -/
theorem c5_witness :
    (["a", "b", "c"] : List Sw).Nodup ∧ 3 ≤ 3 ∧ 0 < 1 ∧ 1 + 1 < 3 ∧
    (["a", "b", "c"] : List Sw)[1]? = some "b" ∧
    path_ports_for_switches
        (build_switch_graph ([⟨"a", some 1, "b", some 2⟩, ⟨"b", some 3, "c", some 4⟩] : List Link))
        (["a", "b", "c"] : List Sw).reverse "b"
      = some ((hopAt (build_switch_graph ([⟨"a", some 1, "b", some 2⟩, ⟨"b", some 3, "c", some 4⟩] : List Link)) ["a", "b", "c"] 1).2,
              (hopAt (build_switch_graph ([⟨"a", some 1, "b", some 2⟩, ⟨"b", some 3, "c", some 4⟩] : List Link)) ["a", "b", "c"] 1).1) :=
  ⟨by decide, by decide, by decide, by decide, by decide,
   c5_reverse_port_resolution _ _ (by decide) (by decide) 1 "b" (by decide) (by decide) (by decide)⟩

theorem getLast?_mem' {α : Type} {l : List α} {a : α} (h : l.getLast? = some a) : a ∈ l := by
  induction l with
  | nil => simp at h
  | cons b l ih =>
    cases l with
    | nil =>
      have : b = a := by simpa using h
      simp [this]
    | cons c l2 =>
      rw [List.getLast?_cons_cons] at h
      exact List.mem_cons_of_mem _ (ih h)

theorem chain_subset_of_closed (g : Sw → List Adj) (S : List Sw)
    (hS : ∀ u ∈ S, ∀ b, isNbr g u b → b ∈ S) :
    ∀ (z : List Sw) (a : Sw), z.head? = some a → a ∈ S → List.Chain' (isNbr g) z →
      ∀ x ∈ z, x ∈ S := by
  intro z
  induction z with
  | nil => intro a h; simp at h
  | cons b z ih =>
    intro a hh ha hch x hx
    have hb : b ∈ S := by
      have hba : b = a := by simpa using hh
      rw [hba]; exact ha
    rcases List.mem_cons.1 hx with rfl | hx2
    · exact hb
    · cases z with
      | nil => simp at hx2
      | cons c z2 =>
        have hcb : isNbr g b c := (List.chain'_cons.1 hch).1
        exact ih c rfl (hS b hb c hcb) (List.chain'_cons.1 hch).2 x hx2

theorem path_end_in_closed (g : Sw → List Adj) (S : List Sw) (src w : Sw) (z : List Sw)
    (hsrc : src ∈ S) (hS : ∀ u ∈ S, ∀ b, isNbr g u b → b ∈ S)
    (hz : IsSwPath g src w z) : w ∈ S := by
  obtain ⟨hh, hl, hch⟩ := hz
  exact chain_subset_of_closed g S hS z src hh hsrc hch w (getLast?_mem' hl)

theorem path_snoc (g : Sw → List Adj) (src w : Sw) (z : List Sw)
    (hz : IsSwPath g src w z) (hlen : 2 ≤ z.length) :
    ∃ y u, z = y ++ [w] ∧ IsSwPath g src u y ∧ isNbr g u w ∧ y.length + 1 = z.length := by
  obtain ⟨hh, hl, hch⟩ := hz
  have hdecomp : z.dropLast ++ [w] = z := List.dropLast_append_getLast? w hl
  have hylen : z.dropLast.length + 1 = z.length := by
    conv_rhs => rw [← hdecomp]
    simp
  have hyne : z.dropLast ≠ [] := by
    intro h
    rw [h] at hylen
    simp at hylen
    omega
  obtain ⟨u, hu⟩ : ∃ u, z.dropLast.getLast? = some u := by
    cases hg : z.dropLast.getLast? with
    | some u => exact ⟨u, rfl⟩
    | none => exact absurd (List.getLast?_eq_none_iff.1 hg) hyne
  have hh2 : z.dropLast.head? = some src := by
    rw [← hdecomp] at hh
    cases hd : z.dropLast with
    | nil => exact absurd hd hyne
    | cons b t =>
      rw [hd] at hh
      simpa using hh
  have hch2 := hch
  rw [← hdecomp] at hch2
  have hparts := List.chain'_append.1 hch2
  refine ⟨z.dropLast, u, hdecomp.symm, ⟨hh2, hu, hparts.1⟩, ?_, hylen⟩
  exact hparts.2.2 u hu w (by simp)

theorem nbr_mem_switchUniverse {links : List Link} {sw : Sw} {e : Adj}
    (he : e ∈ build_switch_graph links sw) : e.1 ∈ switchUniverse links := by
  rw [mem_build_switch_graph] at he
  obtain ⟨l, hl, hok, hme⟩ := he
  rw [mem_adjEntries] at hme
  unfold switchUniverse
  rw [List.mem_flatMap]
  refine ⟨l, List.mem_filter.2 ⟨hl, hok⟩, ?_⟩
  rcases hme with ⟨_, he⟩ | ⟨_, he⟩ <;> rw [he] <;> simp

theorem expand_spec (g : Sw → List Adj) (univF : Finset Sw) (dst v : Sw) (tl : List Sw)
    (V : List Sw) (hnbU : ∀ e ∈ g v, e.1 ∈ univF) :
    ∀ (as : List Adj) (V' : List Sw) (acc : List (List Sw)),
      (∀ e ∈ as, e ∈ g v) →
      (∀ x ∈ V, x ∈ V') →
      (∀ x ∈ V', x ∈ V ∨ (x :: v :: tl) ∈ acc) →
      (∀ s ∈ acc, ∃ x, s = x :: v :: tl ∧ x ∈ V' ∧ x ∉ V ∧ isNbr g v x ∧ x ≠ dst) →
      (∀ e ∈ g v, e ∈ as ∨ e.1 ∈ V') →
      dst ∉ V' →
      ((univF \ V'.toFinset).card + acc.length = (univF \ V.toFinset).card) →
      (match expand dst (v :: tl) as V' acc with
       | .found p => ∃ x, p = x :: v :: tl ∧ x = dst ∧ x ∉ V' ∧ isNbr g v x
       | .cont acc2 V2 =>
           (∀ x ∈ V', x ∈ V2) ∧
           (∀ x ∈ V2, x ∈ V ∨ (x :: v :: tl) ∈ acc2) ∧
           (∀ s ∈ acc2, ∃ x, s = x :: v :: tl ∧ x ∈ V2 ∧ x ∉ V ∧ isNbr g v x ∧ x ≠ dst) ∧
           (∀ e ∈ g v, e.1 ∈ V2) ∧
           dst ∉ V2 ∧
           ((univF \ V2.toFinset).card + acc2.length = (univF \ V.toFinset).card)) := by
  intro as
  induction as with
  | nil =>
    intro V' acc h1 h2 h3 h4 h5 h6 h7
    simp only [expand]
    exact ⟨fun x hx => hx, h3, h4,
      fun e he => (h5 e he).elim (fun h => absurd h (by simp)) id, h6, h7⟩
  | cons e rest ih =>
    intro V' acc h1 h2 h3 h4 h5 h6 h7
    simp only [expand]
    by_cases hv : e.1 ∈ V'
    · rw [if_pos hv]
      refine ih V' acc (fun e' h => h1 e' (List.mem_cons_of_mem _ h)) h2 h3 h4 ?_ h6 h7
      intro e' he'
      rcases h5 e' he' with hmem | hV
      · rcases List.mem_cons.1 hmem with rfl | h
        · exact Or.inr hv
        · exact Or.inl h
      · exact Or.inr hV
    · rw [if_neg hv]
      by_cases hd : e.1 = dst
      · rw [if_pos hd]
        exact ⟨e.1, rfl, hd, hv, ⟨e, h1 e (by simp), rfl⟩⟩
      · rw [if_neg hd]
        have henb : isNbr g v e.1 := ⟨e, h1 e (by simp), rfl⟩
        have henV : e.1 ∉ V := fun h => hv (h2 _ h)
        have p3 : ∀ x ∈ e.1 :: V', x ∈ V ∨ (x :: v :: tl) ∈ acc ++ [e.1 :: v :: tl] := by
          intro x hx
          rcases List.mem_cons.1 hx with rfl | h
          · exact Or.inr (by simp)
          · rcases h3 x h with hV | hacc
            · exact Or.inl hV
            · exact Or.inr (List.mem_append_left _ hacc)
        have p4 : ∀ s ∈ acc ++ [e.1 :: v :: tl],
            ∃ x, s = x :: v :: tl ∧ x ∈ e.1 :: V' ∧ x ∉ V ∧ isNbr g v x ∧ x ≠ dst := by
          intro s hs
          rcases List.mem_append.1 hs with h | h
          · obtain ⟨x, rfl, hxV, hxnV, hnbr, hne⟩ := h4 s h
            exact ⟨x, rfl, List.mem_cons_of_mem _ hxV, hxnV, hnbr, hne⟩
          · have hse : s = e.1 :: v :: tl := by simpa using h
            exact ⟨e.1, hse, by simp, henV, henb, hd⟩
        have p5 : ∀ e' ∈ g v, e' ∈ rest ∨ e'.1 ∈ e.1 :: V' := by
          intro e' he'
          rcases h5 e' he' with hmem | hV
          · rcases List.mem_cons.1 hmem with rfl | h
            · exact Or.inr (by simp)
            · exact Or.inl h
          · exact Or.inr (List.mem_cons_of_mem _ hV)
        have p6 : dst ∉ e.1 :: V' := by
          intro h
          rcases List.mem_cons.1 h with h | h
          · exact hd h.symm
          · exact h6 h
        have p7 : (univF \ (e.1 :: V').toFinset).card + (acc ++ [e.1 :: v :: tl]).length
            = (univF \ V.toFinset).card := by
          have hmemF : e.1 ∈ univF \ V'.toFinset := by
            rw [Finset.mem_sdiff, List.mem_toFinset]
            exact ⟨hnbU e (h1 e (by simp)), hv⟩
          have hpos : 0 < (univF \ V'.toFinset).card := Finset.card_pos.2 ⟨e.1, hmemF⟩
          have hcons : (e.1 :: V').toFinset = insert e.1 V'.toFinset := by simp
          rw [hcons, Finset.sdiff_insert, Finset.card_erase_of_mem hmemF]
          simp only [List.length_append, List.length_cons, List.length_nil]
          omega
        have H := ih (e.1 :: V') (acc ++ [e.1 :: v :: tl])
          (fun e' h => h1 e' (List.mem_cons_of_mem _ h))
          (fun x hx => List.mem_cons_of_mem _ (h2 x hx)) p3 p4 p5 p6 p7
        cases hex : expand dst (v :: tl) rest (e.1 :: V') (acc ++ [e.1 :: v :: tl]) with
        | found p =>
          rw [hex] at H
          obtain ⟨x, hxe, hxd, hxnv, hxnb⟩ := H
          exact ⟨x, hxe, hxd, fun h => hxnv (List.mem_cons_of_mem _ h), hxnb⟩
        | cont acc2 V2 =>
          rw [hex] at H
          obtain ⟨m1, m2, m3, m4, m5, m6⟩ := H
          exact ⟨fun x hx => m1 x (List.mem_cons_of_mem _ hx), m2, m3, m4, m5, m6⟩

theorem pairwise_le_of_const {l : List Nat} {c : Nat} (h : ∀ a ∈ l, a = c) :
    l.Pairwise (· ≤ ·) := by
  induction l with
  | nil => exact List.Pairwise.nil
  | cons a l ih =>
    refine List.pairwise_cons.2 ⟨?_, ih (fun x hx => h x (List.mem_cons_of_mem _ hx))⟩
    intro b hb
    rw [h a (by simp), h b (List.mem_cons_of_mem _ hb)]

theorem bfsAux_correct (g : Sw → List Adj) (univF : Finset Sw)
    (hnb : ∀ a : Sw, ∀ e ∈ g a, e.1 ∈ univF) (src dst : Sw) :
    ∀ (fuel : Nat) (Q : List (List Sw)) (V : List Sw),
      BfsInv g src dst Q V →
      (univF \ V.toFinset).card + Q.length ≤ fuel →
      ((bfsAux g dst fuel Q V = none → ∀ z, ¬ IsSwPath g src dst z) ∧
       (∀ p, bfsAux g dst fuel Q V = some p →
          IsSwPath g src dst p ∧ p.Nodup ∧
          ∀ z, IsSwPath g src dst z → p.length ≤ z.length)) := by
  intro fuel
  induction fuel with
  | zero =>
    intro Q V inv hfuel
    constructor
    · intro _ z hz
      have hQ : Q = [] := List.length_eq_zero.1 (by omega)
      obtain ⟨r0, Qr, hQeq, _⟩ := inv.far dst inv.dst_not z hz
      rw [hQ] at hQeq
      simp at hQeq
    · intro p hp
      simp [bfsAux] at hp
  | succ fuel ih =>
    intro Q V inv hfuel
    cases Q with
    | nil =>
      constructor
      · intro _ z hz
        obtain ⟨r0, Qr, hQeq, _⟩ := inv.far dst inv.dst_not z hz
        simp at hQeq
      · intro p hp
        simp [bfsAux] at hp
    | cons r qrest =>
      cases r with
      | nil =>
        exact absurd rfl (inv.entries [] (by simp)).ne
      | cons v tl =>
        have entry_r : QEntry g src V (v :: tl) := inv.entries _ (by simp)
        have hnbU : ∀ e ∈ g v, e.1 ∈ univF := fun e he => hnb v e he
        have H := expand_spec g univF dst v tl V hnbU (g v) V []
          (fun e he => he) (fun x hx => hx) (fun x hx => Or.inl hx)
          (by intro s hs; simp at hs) (fun e he => Or.inl he) inv.dst_not (by simp)
        cases hex : expand dst (v :: tl) (g v) V [] with
        | found p =>
          rw [hex] at H
          obtain ⟨x, hpe, hxd, hxnV, hxnb⟩ := H
          have hres : bfsAux g dst (fuel + 1) ((v :: tl) :: qrest) V = some p.reverse := by
            simp only [bfsAux, hex]
          constructor
          · intro hnone
            rw [hres] at hnone
            simp at hnone
          · intro p' hp'
            rw [hres] at hp'
            have hpp : p' = p.reverse := (Option.some.inj hp').symm
            subst hpp
            subst hpe
            refine ⟨⟨?_, ?_, ?_⟩, ?_, ?_⟩
            · rw [List.head?_reverse, List.getLast?_cons_cons]
              exact entry_r.last_src
            · rw [List.getLast?_reverse]
              simp [hxd]
            · rw [List.chain'_reverse]
              exact List.Chain'.cons hxnb entry_r.chain
            · rw [List.nodup_reverse]
              refine List.nodup_cons.2 ⟨?_, entry_r.nodup⟩
              intro hmem
              exact hxnV (entry_r.subV x hmem)
            · intro z hz
              obtain ⟨r0, Qr, hQeq, hle⟩ := inv.far dst inv.dst_not z hz
              have hr0 : r0 = v :: tl := by
                injection hQeq with h1 _
                exact h1.symm
              rw [hr0] at hle
              simp only [List.length_reverse, List.length_cons] at hle ⊢
              omega
        | cont acc2 V2 =>
          rw [hex] at H
          obtain ⟨hmono, hV2src, hacc, hcover, hdst2, hcard⟩ := H
          have hres : bfsAux g dst (fuel + 1) ((v :: tl) :: qrest) V
              = bfsAux g dst fuel (qrest ++ acc2) V2 := by
            simp only [bfsAux, hex]
          have hk_min : ∀ s ∈ (v :: tl) :: qrest, (v :: tl).length ≤ s.length := by
            intro s hs
            rcases List.mem_cons.1 hs with rfl | h
            · exact le_refl _
            · have hp := inv.sorted
              rw [List.map_cons, List.pairwise_cons] at hp
              exact hp.1 _ (List.mem_map_of_mem _ h)
          have hbound : ∀ s ∈ (v :: tl) :: qrest, s.length ≤ (v :: tl).length + 1 :=
            inv.bound (v :: tl) rfl
          have hacc_len : ∀ s ∈ acc2, s.length = (v :: tl).length + 1 := by
            intro s hs
            obtain ⟨x, rfl, _⟩ := hacc s hs
            simp
          have hVsub : ∀ x ∈ V, x ∈ V2 := hmono
          have hentries : ∀ s ∈ qrest ++ acc2, QEntry g src V2 s := by
            intro s hs
            rcases List.mem_append.1 hs with h | h
            · have old := inv.entries s (List.mem_cons_of_mem _ h)
              exact ⟨old.ne, old.last_src, old.chain, old.nodup,
                fun x hx => hVsub x (old.subV x hx)⟩
            · obtain ⟨x, rfl, hxV2, hxnV, hnbr, hne⟩ := hacc s h
              refine ⟨by simp, ?_, ?_, ?_, ?_⟩
              · rw [List.getLast?_cons_cons]
                exact entry_r.last_src
              · exact List.Chain'.cons hnbr entry_r.chain
              · refine List.nodup_cons.2 ⟨?_, entry_r.nodup⟩
                intro hmem
                exact hxnV (entry_r.subV x hmem)
              · intro y hy
                rcases List.mem_cons.1 hy with rfl | hy2
                · exact hxV2
                · exact hVsub y (entry_r.subV y hy2)
          have hsorted2 : List.Pairwise (· ≤ ·) ((qrest ++ acc2).map List.length) := by
            rw [List.map_append, List.pairwise_append]
            refine ⟨?_, ?_, ?_⟩
            · have hp := inv.sorted
              rw [List.map_cons] at hp
              exact hp.of_cons
            · refine pairwise_le_of_const (c := (v :: tl).length + 1) ?_
              intro a ha
              obtain ⟨s, hs, rfl⟩ := List.mem_map.1 ha
              exact hacc_len s hs
            · intro a ha b hb
              obtain ⟨s, hs, rfl⟩ := List.mem_map.1 ha
              obtain ⟨s2, hs2, rfl⟩ := List.mem_map.1 hb
              have h1 := hbound s (List.mem_cons_of_mem _ hs)
              have h2 := hacc_len s2 hs2
              omega
          have inv2 : BfsInv g src dst (qrest ++ acc2) V2 := by
            refine ⟨hVsub src inv.src_mem, hdst2, hentries, hsorted2, ?_, ?_, ?_, ?_⟩
            · intro r0 hr0 s hs
              have hr0mem : r0 ∈ qrest ++ acc2 := by
                rcases List.head?_eq_some_iff.1 hr0 with ⟨ys, hys⟩
                rw [hys]
                simp
              have hr0ge : (v :: tl).length ≤ r0.length := by
                rcases List.mem_append.1 hr0mem with h | h
                · exact hk_min r0 (List.mem_cons_of_mem _ h)
                · rw [hacc_len r0 h]
                  omega
              rcases List.mem_append.1 hs with h | h
              · have := hbound s (List.mem_cons_of_mem _ h)
                omega
              · have := hacc_len s h
                omega
            · intro s hs u hu z hz
              rcases List.mem_append.1 hs with h | h
              · exact inv.q_min s (List.mem_cons_of_mem _ h) u hu z hz
              · obtain ⟨x, rfl, hxV2, hxnV, hnbr, hne⟩ := hacc s h
                have hxu : x = u := by simpa using hu
                obtain ⟨r0, Qr, hQeq, hle⟩ := inv.far u (hxu ▸ hxnV) z hz
                have hr0 : r0 = v :: tl := by
                  injection hQeq with h1 _
                  exact h1.symm
                rw [hr0] at hle
                simp only [List.length_cons] at hle ⊢
                omega
            · intro w hw2 z hz
              have hwV : w ∉ V := fun h => hw2 (hVsub w h)
              obtain ⟨r0, Qr, hQeq, hle0⟩ := inv.far w hwV z hz
              have hr0 : r0 = v :: tl := by
                injection hQeq with h1 _
                exact h1.symm
              rw [hr0] at hle0
              cases hQ2 : qrest ++ acc2 with
              | nil =>
                exfalso
                obtain ⟨hqe, hae⟩ := List.append_eq_nil.1 hQ2
                have hVeq : ∀ x ∈ V2, x ∈ V := by
                  intro x hx
                  rcases hV2src x hx with h | h
                  · exact h
                  · rw [hae] at h
                    simp at h
                have hclosed : ∀ u ∈ V2, ∀ b, isNbr g u b → b ∈ V2 := by
                  intro u hu b hb
                  have huV : u ∈ V := hVeq u hu
                  rcases inv.closed u huV with ⟨r', hr'Q, hr'h⟩ | hcl
                  · rw [hqe] at hr'Q
                    have hr'e : r' = v :: tl := by simpa using hr'Q
                    rw [hr'e] at hr'h
                    have huv : u = v := by
                      have : some v = some u := by simpa using hr'h
                      exact (Option.some.inj this).symm
                    obtain ⟨e, he, he1⟩ := hb
                    rw [huv] at he
                    rw [← he1]
                    exact hcover e he
                  · exact hVsub b (hcl b hb)
                exact hw2 (path_end_in_closed g V2 src w z (hVsub src inv.src_mem) hclosed hz)
              | cons h0 t0 =>
                refine ⟨h0, t0, rfl, ?_⟩
                have hh0mem : h0 ∈ qrest ++ acc2 := by
                  rw [hQ2]
                  simp
                have hh0 : (v :: tl).length ≤ h0.length ∧ h0.length ≤ (v :: tl).length + 1 := by
                  rcases List.mem_append.1 hh0mem with h | h
                  · exact ⟨hk_min h0 (List.mem_cons_of_mem _ h),
                      hbound h0 (List.mem_cons_of_mem _ h)⟩
                  · rw [hacc_len h0 h]
                    omega
                by_cases hcase : h0.length ≤ (v :: tl).length
                · omega
                · by_contra hzl
                  push_neg at hzl
                  have hzlen : z.length = (v :: tl).length + 1 := by omega
                  have hz2 : 2 ≤ z.length := by
                    simp only [List.length_cons] at hzlen
                    omega
                  obtain ⟨y, u, hzdec, hy, hnuw, hylen⟩ := path_snoc g src w z hz hz2
                  have hylen2 : y.length = (v :: tl).length := by omega
                  by_cases huV : u ∈ V
                  · rcases inv.closed u huV with ⟨r', hr'Q, hr'h⟩ | hcl
                    · rcases List.mem_cons.1 hr'Q with heq | hr'q
                      · have huv : u = v := by
                          rw [heq] at hr'h
                          have : some v = some u := by simpa using hr'h
                          exact (Option.some.inj this).symm
                        obtain ⟨e, he, he1⟩ := hnuw
                        apply hw2
                        rw [huv] at he
                        rw [← he1]
                        exact hcover e he
                      · have hmin := inv.q_min r' (List.mem_cons_of_mem _ hr'q) u hr'h y hy
                        have hr'new : r' ∈ h0 :: t0 := by
                          rw [← hQ2]
                          exact List.mem_append_left _ hr'q
                        have hsort := hsorted2
                        rw [hQ2, List.map_cons, List.pairwise_cons] at hsort
                        rcases List.mem_cons.1 hr'new with heq2 | hr't
                        · rw [heq2] at hmin
                          omega
                        · have := hsort.1 r'.length (List.mem_map_of_mem _ hr't)
                          omega
                    · exact hwV (hcl w hnuw)
                  · obtain ⟨r0', Qr', hQeq', hle'⟩ := inv.far u huV y hy
                    have hr0' : r0' = v :: tl := by
                      injection hQeq' with h1 _
                      exact h1.symm
                    rw [hr0'] at hle'
                    omega
            · intro u hu
              rcases hV2src u hu with huV | hunew
              · rcases inv.closed u huV with ⟨r', hr'Q, hr'h⟩ | hcl
                · rcases List.mem_cons.1 hr'Q with heq | hr'q
                  · have huv : u = v := by
                      rw [heq] at hr'h
                      have : some v = some u := by simpa using hr'h
                      exact (Option.some.inj this).symm
                    refine Or.inr ?_
                    intro b hb
                    obtain ⟨e, he, he1⟩ := hb
                    rw [huv] at he
                    rw [← he1]
                    exact hcover e he
                  · exact Or.inl ⟨r', List.mem_append_left _ hr'q, hr'h⟩
                · exact Or.inr (fun b hb => hVsub b (hcl b hb))
              · exact Or.inl ⟨u :: v :: tl, List.mem_append_right _ hunew, rfl⟩
          have hfuel2 : (univF \ V2.toFinset).card + (qrest ++ acc2).length ≤ fuel := by
            simp only [List.length_cons] at hfuel
            simp only [List.length_append]
            omega
          have hcont := ih (qrest ++ acc2) V2 inv2 hfuel2
          rw [hres]
          exact hcont

theorem shortest_switch_path_spec (links : List Link) (src dst : Sw) :
    (∀ p, shortest_switch_path links src dst = some p →
       IsSwPath (build_switch_graph links) src dst p ∧ p.Nodup ∧
       ∀ z, IsSwPath (build_switch_graph links) src dst z → p.length ≤ z.length) ∧
    (shortest_switch_path links src dst = none ↔
       ¬ ∃ z, IsSwPath (build_switch_graph links) src dst z) := by
  by_cases hsd : src = dst
  · subst hsd
    have hres : shortest_switch_path links src src = some [src] := by
      simp [shortest_switch_path]
    constructor
    · intro p hp
      rw [hres] at hp
      have hpe : p = [src] := (Option.some.inj hp).symm
      subst hpe
      refine ⟨⟨rfl, rfl, List.chain'_singleton _⟩, by simp, ?_⟩
      intro z hz
      obtain ⟨hh, _, _⟩ := hz
      have hzne : z ≠ [] := by
        intro h
        rw [h] at hh
        simp at hh
      have := List.length_pos.2 hzne
      simp only [List.length_cons, List.length_nil]
      omega
    · rw [hres]
      constructor
      · intro h
        simp at h
      · intro h
        exact absurd ⟨[src], rfl, rfl, List.chain'_singleton _⟩ h
  · have hres : shortest_switch_path links src dst
        = bfsAux (build_switch_graph links) dst (bfsFuel links) [[src]] [src] := by
      simp [shortest_switch_path, hsd]
    have hnb : ∀ a : Sw, ∀ e ∈ build_switch_graph links a,
        e.1 ∈ (switchUniverse links).toFinset := by
      intro a e he
      rw [List.mem_toFinset]
      exact nbr_mem_switchUniverse he
    have inv0 : BfsInv (build_switch_graph links) src dst [[src]] [src] := by
      refine ⟨by simp, ?_, ?_, ?_, ?_, ?_, ?_, ?_⟩
      · intro h
        have : dst = src := by simpa using h
        exact hsd this.symm
      · intro r hr
        have hre : r = [src] := by simpa using hr
        subst hre
        exact ⟨by simp, rfl, List.chain'_singleton _, by simp, fun x hx => hx⟩
      · simp
      · intro r0 hr0 s hs
        have h1 : [src] = r0 := by simpa using hr0
        have h2 : s = [src] := by simpa using hs
        rw [← h1, h2]
        simp
      · intro r hr u hu z hz
        have hre : r = [src] := by simpa using hr
        subst hre
        obtain ⟨hh, _, _⟩ := hz
        have hzne : z ≠ [] := by
          intro h
          rw [h] at hh
          simp at hh
        have := List.length_pos.2 hzne
        simp only [List.length_cons, List.length_nil]
        omega
      · intro w hw z hz
        refine ⟨[src], [], rfl, ?_⟩
        have hwsrc : w ≠ src := by
          intro h
          apply hw
          rw [h]
          simp
        obtain ⟨hh, hl, _⟩ := hz
        match z with
        | [] => simp at hh
        | [a] =>
          exfalso
          have ha : a = src := by simpa using hh
          have haw : a = w := by simpa using hl
          exact hwsrc (haw.symm.trans ha)
        | a :: b :: z3 =>
          simp only [List.length_cons, List.length_nil]
          omega
      · intro u hu
        refine Or.inl ⟨[src], by simp, ?_⟩
        have : u = src := by simpa using hu
        rw [this]
        rfl
    have hfuel0 : ((switchUniverse links).toFinset \ ([src] : List Sw).toFinset).card
        + ([[src]] : List (List Sw)).length ≤ bfsFuel links := by
      have h1 : ((switchUniverse links).toFinset \ ([src] : List Sw).toFinset).card
          ≤ (switchUniverse links).toFinset.card := Finset.card_le_card Finset.sdiff_subset
      have h2 := List.toFinset_card_le (switchUniverse links)
      unfold bfsFuel
      simp only [List.length_cons, List.length_nil]
      omega
    have hmain := bfsAux_correct (build_switch_graph links) (switchUniverse links).toFinset
      hnb src dst (bfsFuel links) [[src]] [src] inv0 hfuel0
    constructor
    · intro p hp
      rw [hres] at hp
      exact hmain.2 p hp
    · rw [hres]
      constructor
      · intro h
        rintro ⟨z, hz⟩
        exact hmain.1 h z hz
      · intro hno
        cases hb : bfsAux (build_switch_graph links) dst (bfsFuel links) [[src]] [src] with
        | none => rfl
        | some p => exact absurd ⟨p, (hmain.2 p hb).1⟩ hno

/-- **C1.** For every link list and every pair of switch ids, the BFS
`shortest_switch_path` over the built graph returns, when it returns a
path, a genuine path from `src` to `dst` (nonempty, correct endpoints,
edge-connected) of minimal hop count among all connecting paths; and it
returns the not-found value `none` exactly when no connecting path
exists.  (Termination is encoded by the proved-sufficient fuel bound
`bfsFuel`.) -/
theorem c1_shortest_switch_path_correct (links : List Link) (src dst : Sw) :
    (∀ p, shortest_switch_path links src dst = some p →
       IsSwPath (build_switch_graph links) src dst p ∧
       ∀ z, IsSwPath (build_switch_graph links) src dst z → p.length ≤ z.length) ∧
    (shortest_switch_path links src dst = none ↔
       ¬ ∃ z, IsSwPath (build_switch_graph links) src dst z) := by
  obtain ⟨h1, h2⟩ := shortest_switch_path_spec links src dst
  exact ⟨fun p hp => ⟨(h1 p hp).1, (h1 p hp).2.2⟩, h2⟩

/-- **C10.** Every path returned by `shortest_switch_path` starts at the
source switch, ends at the destination switch, and contains no switch
twice; hence keying the per-hop port dict by switch id loses no hop — the
lookup of every path position's switch returns exactly that position's
port pair. -/
theorem c10_returned_path_shape (links : List Link) (src dst : Sw) (p : List Sw)
    (h : shortest_switch_path links src dst = some p) :
    p.head? = some src ∧ p.getLast? = some dst ∧ p.Nodup ∧
    (∀ i, i < p.length → ∀ sw, p[i]? = some sw →
      path_ports_for_switches (build_switch_graph links) p sw
        = some (hopAt (build_switch_graph links) p i)) := by
  obtain ⟨hpath, hnd, _⟩ := (shortest_switch_path_spec links src dst).1 p h
  obtain ⟨hh, hl, _⟩ := hpath
  exact ⟨hh, hl, hnd, fun i _ sw hsw => path_ports_lookup _ p hnd i sw hsw⟩

/-- Witness for C10 on a one-link topology. -/
theorem c10_witness :
    shortest_switch_path ([⟨"a", some 1, "b", some 2⟩] : List Link) "a" "b" = some ["a", "b"] ∧
    ((["a", "b"] : List Sw).head? = some "a" ∧ (["a", "b"] : List Sw).getLast? = some "b" ∧
     (["a", "b"] : List Sw).Nodup ∧
     (∀ i, i < (["a", "b"] : List Sw).length → ∀ sw, (["a", "b"] : List Sw)[i]? = some sw →
       path_ports_for_switches (build_switch_graph ([⟨"a", some 1, "b", some 2⟩] : List Link)) ["a", "b"] sw
         = some (hopAt (build_switch_graph ([⟨"a", some 1, "b", some 2⟩] : List Link)) ["a", "b"] i))) :=
  ⟨rfl, c10_returned_path_shape _ "a" "b" ["a", "b"] rfl⟩

theorem dropWhile_h_append : ∀ (hs : List Char), (∀ c ∈ hs, c = 'h') →
    ∀ (ds : List Char), (∀ c ∈ ds, c.isDigit) →
    (hs ++ ds).dropWhile (· = 'h') = ds := by
  intro hs
  induction hs with
  | nil =>
    intro _ ds hd
    cases ds with
    | nil => rfl
    | cons c rest =>
      rw [List.nil_append, List.dropWhile_cons]
      have hc := hd c (by simp)
      have hcne : ¬ (c = 'h') := by
        intro he
        rw [he] at hc
        exact absurd hc (by decide)
      simp [hcne]
  | cons a hs ih =>
    intro hh ds hd
    rw [List.cons_append, List.dropWhile_cons]
    have ha : a = 'h' := hh a (by simp)
    simp only [ha, decide_True, if_true]
    exact ih (fun c hc => hh c (List.mem_cons_of_mem _ hc)) ds hd

theorem pyIntParse_digits (ds : List Char) (hne : ds ≠ []) (hd : ∀ c ∈ ds, c.isDigit) :
    pyIntParse ds = some ((digitsToNat ds : Nat) : Int) := by
  have hnospace : ∀ c ∈ ds, ¬ (c = ' ') := by
    intro c hc he
    have hdc := hd c hc
    rw [he] at hdc
    exact absurd hdc (by decide)
  have h1 : ds.dropWhile (· = ' ') = ds := by
    cases ds with
    | nil => rfl
    | cons c rest =>
      rw [List.dropWhile_cons]
      simp [hnospace c (by simp)]
  have h2 : ds.reverse.dropWhile (· = ' ') = ds.reverse := by
    cases hr : ds.reverse with
    | nil => rfl
    | cons c rest =>
      rw [List.dropWhile_cons]
      have hcm : c ∈ ds := by
        rw [← List.mem_reverse, hr]
        simp
      simp [hnospace c hcm]
  simp only [pyIntParse, h1, h2, List.reverse_reverse]
  cases ds with
  | nil => exact absurd rfl hne
  | cons c rest =>
    have hc := hd c (by simp)
    have hcm : ¬ (c = '-') := by
      intro he
      rw [he] at hc
      exact absurd hc (by decide)
    have hcp : ¬ (c = '+') := by
      intro he
      rw [he] at hc
      exact absurd hc (by decide)
    have hall : (c :: rest).all (·.isDigit) = true := by
      rw [List.all_eq_true]
      exact hd
    simp [hcm, hcp, hall]

/-- **C9 (counterexample).** The fallback heuristic does not handle an
arbitrary prefix before the ordinal: for the host identifier `"g1"`
(prefix `g`, ordinal 1), `lstrip('h')` leaves `"g1"`, `int` raises, and
the heuristic yields no attachment point instead of the claimed
`("00:00:00:00:00:00:00:01", 1)`. -/
theorem c9_counterexample :
    heuristic "g1" = none ∧
    ¬ heuristic "g1" = some ("00:00:00:00:00:00:00:01", 1) := by
  exact ⟨by decide, by decide⟩

/-- **C9 (amended).** For every host identifier consisting of a (possibly
empty) run of `'h'` characters followed by a nonempty string of decimal
digits encoding the ordinal `n`, the fallback heuristic deterministically
returns the attachment point whose switch id is the canonical
eight-field colon-separated string whose last field is `n` zero-padded to
width 2, with the fixed default port 1.  Not every prefix is handled:
`lstrip('h')` strips only `'h'` characters, so an identifier like `"g1"`
leaves a remainder `int` cannot parse and yields no attachment point
(the counterexample above) — though remainders `int` does accept, such
as a leading sign or spaces, still parse.  (Determinism is immediate:
the heuristic is a pure function of the identifier.) -/
theorem c9_heuristic_fallback (hs ds : List Char)
    (hh : ∀ c ∈ hs, c = 'h') (hne : ds ≠ []) (hdig : ∀ c ∈ ds, c.isDigit) :
    heuristic (String.mk (hs ++ ds))
      = some ("00:00:00:00:00:00:00:" ++ pyFormat02d ((digitsToNat ds : Nat) : Int), 1) := by
  unfold heuristic
  have hdata : (String.mk (hs ++ ds)).data = hs ++ ds := rfl
  rw [hdata, dropWhile_h_append hs hh ds hdig, pyIntParse_digits ds hne hdig]

/-- Witness for the amended C9 at `"h3"`. -/
theorem c9_witness :
    (∀ c ∈ (['h'] : List Char), c = 'h') ∧ (['3'] : List Char) ≠ [] ∧
    (∀ c ∈ (['3'] : List Char), c.isDigit) ∧
    heuristic (String.mk (['h'] ++ ['3']))
      = some ("00:00:00:00:00:00:00:" ++ pyFormat02d ((digitsToNat ['3'] : Nat) : Int), 1) :=
  ⟨by decide, by decide, by decide,
   c9_heuristic_fallback ['h'] ['3'] (by decide) (by decide) (by decide)⟩

/-- **C8.** Unknown ports propagate as unknown, never defaulting to 0:
`get_port` yields `none` when every probed key is absent or
unconvertible; `build_switch_graph` records a link's (possibly `none`)
port values unchanged in both adjacency entries; the port-resolution
lookup returns exactly the (possibly `none`) local-port field of the
resolving adjacency entry; and `push_flow` called with `in_port = none`
emits a flow body with no `in_port` key at all. -/
theorem c8_unknown_port_propagation :
    (∀ (kvs : List (String × Json)) (keys : List String),
       (∀ k ∈ keys, ∀ v, pyGet kvs k = some v → pyJsonToInt v = none) →
       get_port kvs keys = none) ∧
    (∀ (links : List Link) (l : Link), l ∈ links → linkOk l = true →
       (l.dst, l.src_port, l.dst_port) ∈ build_switch_graph links l.src ∧
       (l.src, l.dst_port, l.src_port) ∈ build_switch_graph links l.dst) ∧
    (∀ (g : Sw → List Adj) (sw t : Sw) (e : Adj),
       (g sw).find? (fun x => x.1 == t) = some e →
       portToward g sw t = e.2.1) ∧
    (∀ (sw nm : String) (outP : Int) (pr : Nat),
       "in_port" ∉ (push_flow sw nm none outP pr).map Prod.fst) := by
  refine ⟨?_, ?_, ?_, ?_⟩
  · intro kvs keys
    induction keys with
    | nil => intro _; rfl
    | cons k rest ih =>
      intro h
      simp only [get_port]
      cases hv : pyGet kvs k with
      | none => exact ih (fun k' hk' v hv' => h k' (List.mem_cons_of_mem _ hk') v hv')
      | some v =>
        have hn := h k (by simp) v hv
        simp only [hn]
        exact ih (fun k' hk' v' hv' => h k' (List.mem_cons_of_mem _ hk') v' hv')
  · intro links l hl hok
    constructor
    · exact mem_build_switch_graph.2 ⟨l, hl, hok, mem_adjEntries.2 (Or.inl ⟨rfl, rfl⟩)⟩
    · exact mem_build_switch_graph.2 ⟨l, hl, hok, mem_adjEntries.2 (Or.inr ⟨rfl, rfl⟩)⟩
  · intro g sw t e hfind
    unfold portToward
    rw [hfind]
  · intro sw nm outP pr
    simp [push_flow]

/-- **C7.** Link normalization is total and shape-tolerant: a payload that
is neither a list nor an object wrapping a list under the `links` key
yields the empty result; a list payload is normalized entrywise with
malformed entries dropped (non-dict entries, and entries whose source or
destination switch id does not resolve); and every record whose two
switch ids resolve to nonempty strings yields a normalized link carrying
those strings exactly, with ports resolved by `get_port`. -/
theorem c7_get_topology_links_total :
    (∀ raw : Json, (∀ xs, raw ≠ Json.arr xs) →
       (∀ kvs, raw = Json.obj kvs → ∀ v, pyGet kvs "links" = some v → ∀ xs, v ≠ Json.arr xs) →
       get_topology_links raw = []) ∧
    (∀ entries : List Json,
       get_topology_links (Json.arr entries) = entries.filterMap normalizeEntry) ∧
    (∀ e : Json, (∀ kvs, e ≠ Json.obj kvs) → normalizeEntry e = none) ∧
    (∀ kvs, (nestedFix (resolveAlias kvs srcSwitchKeys) = none ∨
             nestedFix (resolveAlias kvs dstSwitchKeys) = none) →
       normalizeEntry (Json.obj kvs) = none) ∧
    (∀ kvs s t, nestedFix (resolveAlias kvs srcSwitchKeys) = some (Json.str s) → s ≠ "" →
       nestedFix (resolveAlias kvs dstSwitchKeys) = some (Json.str t) → t ≠ "" →
       normalizeEntry (Json.obj kvs)
         = some ⟨s, get_port kvs srcPortKeys, t, get_port kvs dstPortKeys⟩) := by
  refine ⟨?_, ?_, ?_, ?_, ?_⟩
  · intro raw h1 h2
    cases raw with
    | arr xs => exact absurd rfl (h1 xs)
    | obj kvs =>
      simp only [get_topology_links]
      cases hv : pyGet kvs "links" with
      | none => rfl
      | some v =>
        cases v with
        | arr xs => exact absurd rfl (h2 kvs rfl (Json.arr xs) hv xs)
        | null => rfl
        | bool b => rfl
        | int n => rfl
        | str s => rfl
        | obj kvs2 => rfl
    | null => rfl
    | bool b => rfl
    | int n => rfl
    | str s => rfl
  · intro entries
    rfl
  · intro e h
    cases e with
    | obj kvs => exact absurd rfl (h kvs)
    | null => rfl
    | bool b => rfl
    | int n => rfl
    | str s => rfl
    | arr xs => rfl
  · intro kvs h
    rcases h with h | h
    · simp only [normalizeEntry, h]
    · simp only [normalizeEntry, h]
      cases nestedFix (resolveAlias kvs srcSwitchKeys) <;> rfl
  · intro kvs s t h1 hs h2 ht
    simp [normalizeEntry, h1, h2, jsonTruthy, hs, ht, pyStr, pyStrQ]

/-- **C6.** When both hosts resolve to the same attachment switch `S`
(host ports `srcP`, `dstP`): the computed switch path is exactly `[S]`
independent of the graph contents; after the two endpoint overrides the
hop ports of `S` are `(srcP, dstP)`; and the forward installation loop
issues exactly one flow rule, on `S`, matching ingress `srcP` and
outputting to `dstP`. -/
theorem c6_same_switch (links : List Link) (S : Sw) (srcP dstP : Int)
    (srcName dstName : String) :
    shortest_switch_path links S S = some [S] ∧
    overrideEndpoints (path_ports_for_switches (build_switch_graph links) [S]) [S] srcP dstP S
      = some (some srcP, some dstP) ∧
    pushLoop [S]
        (overrideEndpoints (path_ports_for_switches (build_switch_graph links) [S]) [S] srcP dstP)
        dstP "fwd" srcName dstName
      = [push_flow S ("fwd" ++ "_" ++ srcName ++ "_to_" ++ dstName ++ "_" ++ toString (0 + 1))
          (some srcP) dstP 32768] := by
  have hpp : path_ports_for_switches (build_switch_graph links) [S]
      = fun x => if x = S then some (none, none) else none := rfl
  have h2 : overrideEndpoints (fun x => if x = S then some ((none : Option Int), (none : Option Int)) else none)
      [S] srcP dstP S = some (some srcP, some dstP) := by
    simp [overrideEndpoints, hpGet]
  have hov : overrideEndpoints (path_ports_for_switches (build_switch_graph links) [S]) [S] srcP dstP S
      = some (some srcP, some dstP) := by
    rw [hpp]
    exact h2
  refine ⟨by simp [shortest_switch_path], hov, ?_⟩
  simp [pushLoop, hpGet, hov, List.enum]

theorem mainModel_aps (srcAp0 dstAp0 : Option (Sw × Int)) (srcName dstName : String) :
    (if srcAp0 = none ∨ dstAp0 = none then
       (resolvedAp srcAp0 srcName, resolvedAp dstAp0 dstName)
     else (srcAp0, dstAp0))
      = (resolvedAp srcAp0 srcName, resolvedAp dstAp0 dstName) := by
  by_cases h : srcAp0 = none ∨ dstAp0 = none
  · rw [if_pos h]
  · rw [if_neg h]
    push_neg at h
    obtain ⟨h1, h2⟩ := h
    cases srcAp0 with
    | none => exact absurd rfl h1
    | some a =>
      cases dstAp0 with
      | none => exact absurd rfl h2
      | some b => rfl

/-- **C3.** Resolution- and path-layer faults abort the run before any
installation: when attachment resolution (after the fallback heuristic)
fails for either host the run exits with the attachment-unresolved fault
and zero flow bodies; when it succeeds but the normalized topology is
empty, with the empty-topology fault and zero flow bodies; when topology
is nonempty but no switch path exists, with the path-not-found fault and
zero flow bodies; and conversely a run that reaches installation (`.ok`)
has resolved both attachments, obtained a nonempty normalized topology,
and found a switch path. -/
theorem c3_abort_before_install (srcName dstName : String)
    (srcAp0 dstAp0 : Option (Sw × Int)) (rawTopo : Json) (bidir : Bool) :
    ((resolvedAp srcAp0 srcName = none ∨ resolvedAp dstAp0 dstName = none) →
       mainModel srcName dstName srcAp0 dstAp0 rawTopo bidir = .error .attachmentUnresolved ∧
       installsOf (mainModel srcName dstName srcAp0 dstAp0 rawTopo bidir) = []) ∧
    (∀ s ps d pd, resolvedAp srcAp0 srcName = some (s, ps) →
       resolvedAp dstAp0 dstName = some (d, pd) →
       get_topology_links rawTopo = [] →
       mainModel srcName dstName srcAp0 dstAp0 rawTopo bidir = .error .emptyTopology ∧
       installsOf (mainModel srcName dstName srcAp0 dstAp0 rawTopo bidir) = []) ∧
    (∀ s ps d pd, resolvedAp srcAp0 srcName = some (s, ps) →
       resolvedAp dstAp0 dstName = some (d, pd) →
       get_topology_links rawTopo ≠ [] →
       shortest_switch_path (get_topology_links rawTopo) s d = none →
       mainModel srcName dstName srcAp0 dstAp0 rawTopo bidir = .error .noPath ∧
       installsOf (mainModel srcName dstName srcAp0 dstAp0 rawTopo bidir) = []) ∧
    (∀ flows, mainModel srcName dstName srcAp0 dstAp0 rawTopo bidir = .ok flows →
       ∃ s ps d pd, resolvedAp srcAp0 srcName = some (s, ps) ∧
         resolvedAp dstAp0 dstName = some (d, pd) ∧
         get_topology_links rawTopo ≠ [] ∧
         ∃ sp, shortest_switch_path (get_topology_links rawTopo) s d = some sp) := by
  refine ⟨?_, ?_, ?_, ?_⟩
  · intro h
    have hmm : mainModel srcName dstName srcAp0 dstAp0 rawTopo bidir
        = .error .attachmentUnresolved := by
      simp only [mainModel, mainModel_aps]
      rcases h with h | h
      · rw [h]
      · rw [h]
        cases hs : resolvedAp srcAp0 srcName with
        | none => rfl
        | some a =>
          obtain ⟨s, ps⟩ := a
          rfl
    exact ⟨hmm, by rw [hmm]; rfl⟩
  · intro s ps d pd h1 h2 hlinks
    have hmm : mainModel srcName dstName srcAp0 dstAp0 rawTopo bidir
        = .error .emptyTopology := by
      simp only [mainModel, mainModel_aps]
      rw [h1, h2]
      simp [hlinks]
    exact ⟨hmm, by rw [hmm]; rfl⟩
  · intro s ps d pd h1 h2 hne hpath
    have hsd : s ≠ d := by
      intro he
      rw [he] at hpath
      simp [shortest_switch_path] at hpath
    have hlen : ¬ (get_topology_links rawTopo).length = 0 := by
      intro h0
      exact hne (List.length_eq_zero.1 h0)
    have hmm : mainModel srcName dstName srcAp0 dstAp0 rawTopo bidir
        = .error .noPath := by
      simp only [mainModel, mainModel_aps]
      rw [h1, h2]
      simp [hlen, hpath, hsd]
    exact ⟨hmm, by rw [hmm]; rfl⟩
  · intro flows hok
    cases hs : resolvedAp srcAp0 srcName with
    | none =>
      exfalso
      have hmm : mainModel srcName dstName srcAp0 dstAp0 rawTopo bidir
          = .error .attachmentUnresolved := by
        simp only [mainModel, mainModel_aps]
        rw [hs]
      rw [hmm] at hok
      simp at hok
    | some a =>
      obtain ⟨s, ps⟩ := a
      cases hd2 : resolvedAp dstAp0 dstName with
      | none =>
        exfalso
        have hmm : mainModel srcName dstName srcAp0 dstAp0 rawTopo bidir
            = .error .attachmentUnresolved := by
          simp only [mainModel, mainModel_aps]
          rw [hs, hd2]
        rw [hmm] at hok
        simp at hok
      | some b =>
        obtain ⟨d, pd⟩ := b
        have hlne : get_topology_links rawTopo ≠ [] := by
          intro hl
          have hmm : mainModel srcName dstName srcAp0 dstAp0 rawTopo bidir
              = .error .emptyTopology := by
            simp only [mainModel, mainModel_aps]
            rw [hs, hd2]
            simp [hl]
          rw [hmm] at hok
          simp at hok
        refine ⟨s, ps, d, pd, rfl, rfl, hlne, ?_⟩
        cases hp : shortest_switch_path (get_topology_links rawTopo) s d with
        | some sp => exact ⟨sp, rfl⟩
        | none =>
          exfalso
          have hsd : s ≠ d := by
            intro he
            rw [he] at hp
            simp [shortest_switch_path] at hp
          have hlen : ¬ (get_topology_links rawTopo).length = 0 := by
            intro h0
            exact hlne (List.length_eq_zero.1 h0)
          have hmm : mainModel srcName dstName srcAp0 dstAp0 rawTopo bidir
              = .error .noPath := by
            simp only [mainModel, mainModel_aps]
            rw [hs, hd2]
            simp [hlen, hp, hsd]
          rw [hmm] at hok
          simp at hok

end SDN
